import Mathlib

/-!
Verification of the Wumpus-World knowledge base (`knowledge_base.py`).

This file gives a shallow embedding of the `KnowledgeBase` class: its belief
state is a record of finite sets of grid locations, and its two entry points
(`tell` for percepts and actions) plus the derived queries (`safe_locations`,
`wumpus_location`, `_navigate_to`, `_find_path_to`, `_explore_safe`) are
translated as executable Lean functions.  Theorems about the spec's claims
follow the definitions.

Modelling notes, in source order:
* Python locations are pairs of ints; the grid is `{1..4} × {1..4}`.
* `self.safe_locations` is a property: every read recomputes the stored
  `_safe_locations` field from `no_pit_locations`, `possible_wumpus_locations`
  and `wumpus_alive`, and returns the freshly stored set.  The `.add(...)`
  call inside `tell` therefore mutates the just-recomputed stored copy, and
  this is modelled field-by-field (`safe_locations_store`).
* Percept signals are the strings the source compares against
  (e.g. `stench == "Stench"`); they are kept as strings here.
* The percept dictionary is an association list with Python-dict update
  semantics (replacement keeps the position, a new key is appended).
* `set.intersection(*(adjacent s for s in stench_locations))` is only invoked
  with a nonempty family whose members are subsets of the grid, so it is
  embedded as a filter of the grid by membership in every adjacency set,
  which agrees with the source at every call site.
* Python iterates hash sets in an unspecified order; wherever the source
  iterates a set and the result can depend on that order, this embedding
  fixes a concrete order (the source's own delta-list order for adjacency,
  row-major grid order for location sets) and the theorems below are about
  this embedding; facts independent of the order are noted as such.
* The floats 0.2, 0.3, 0.25 of `_explore_safe` are embedded as the exact
  rationals 2/10, 3/10, 1/4; every comparison used below is far outside
  double rounding error.
-/

set_option maxHeartbeats 1000000

namespace WumpusKB

abbrev Loc := Int × Int

/-- The 4×4 grid `all_locations = {(i, j) for i in range(1, 5) for j in range(1, 5)}`. -/
def allLocations : Finset Loc := (Finset.Icc (1 : Int) 4) ×ˢ (Finset.Icc (1 : Int) 4)

/-- The 16 grid cells in row-major order (used where the source iterates a set
of locations and only membership matters, or a fixed order is needed). -/
def gridList : List Loc :=
  [(1,1),(1,2),(1,3),(1,4),(2,1),(2,2),(2,3),(2,4),
   (3,1),(3,2),(3,3),(3,4),(4,1),(4,2),(4,3),(4,4)]

/-- `_get_adjacent`, as a list in the source's delta order
`[(1,0), (-1,0), (0,1), (0,-1)]` with the bounds check `1 <= _ <= 4`. -/
def adjacentList (l : Loc) : List Loc :=
  ([((1:Int),(0:Int)), (-1,0), (0,1), (0,-1)]).filterMap (fun d =>
    if 1 ≤ l.1 + d.1 ∧ l.1 + d.1 ≤ 4 ∧ 1 ≤ l.2 + d.2 ∧ l.2 + d.2 ≤ 4
    then some (l.1 + d.1, l.2 + d.2) else none)

/-- `_get_adjacent` as a set (the source returns a Python set). -/
def adjacent (l : Loc) : Finset Loc := (adjacentList l).toFinset

/-- Agent facing; the source uses the strings 'North', 'East', 'South', 'West'. -/
inductive Dir where
  | North | East | South | West
  deriving DecidableEq, Repr

/-- The six `WumpusWorldAgent` action methods that `tell` dispatches on by
identity comparison. -/
inductive Action where
  | move_forward | grab | turn_left | turn_right | shoot | climb
  deriving DecidableEq, Repr

/-- A percept 5-tuple `(stench, breeze, glitter, bump, scream)` of signal
strings, exactly as the source stores and compares them. -/
structure PerceptT where
  stench : String
  breeze : String
  glitter : String
  bump : String
  scream : String
  deriving DecidableEq, Repr

/-- A sentence passed to `tell`: either `(action, time)` (first component
callable) or `(percept, time)` (first component a tuple). -/
inductive Sentence where
  | action (a : Action) (t : Nat)
  | percept (p : PerceptT) (t : Nat)
  deriving DecidableEq, Repr

/-- The mutable state of `KnowledgeBase`.  `safe_locations_store` is the
`_safe_locations` backing field of the `safe_locations` property and
`wumpus_location_cache` is `_wumpus_location`. -/
structure KB where
  percepts : List (Loc × PerceptT × Nat)
  visited : Finset Loc
  safe_locations_store : Finset Loc
  stench_locations : Finset Loc
  no_stench_locations : Finset Loc
  possible_wumpus_locations : Finset Loc
  no_wumpus_locations : Finset Loc
  wumpus_location_cache : Option Loc
  no_pit_locations : Finset Loc
  possible_pit_locations : Finset Loc
  gold_location : Option Loc
  wumpus_alive : Bool
  has_arrow : Bool
  has_gold : Bool
  agent_location : Loc
  agent_direction : Dir
  previous_location : Option Loc
  deriving DecidableEq

def EXIT_LOCATION : Loc := (1, 1)

/-- `KnowledgeBase.__init__`. -/
def initKB : KB where
  percepts := []
  visited := {EXIT_LOCATION}
  safe_locations_store := {EXIT_LOCATION}
  stench_locations := ∅
  no_stench_locations := ∅
  possible_wumpus_locations := allLocations \ {EXIT_LOCATION}
  no_wumpus_locations := {EXIT_LOCATION}
  wumpus_location_cache := none
  no_pit_locations := {EXIT_LOCATION}
  possible_pit_locations := ∅
  gold_location := none
  wumpus_alive := true
  has_arrow := true
  has_gold := false
  agent_location := EXIT_LOCATION
  agent_direction := Dir.East
  previous_location := none

/-- The value computed by the body of the `safe_locations` property getter:
`no_pit_locations` if the wumpus is dead, else
`no_pit_locations - possible_wumpus_locations`. -/
def safeDerived (kb : KB) : Finset Loc :=
  if kb.wumpus_alive then kb.no_pit_locations \ kb.possible_wumpus_locations
  else kb.no_pit_locations

/-- A read of the `safe_locations` property: recomputes and overwrites the
stored `_safe_locations` field and returns the stored set. -/
def safeLocationsRead (kb : KB) : KB × Finset Loc :=
  ({ kb with safe_locations_store := safeDerived kb }, safeDerived kb)

/-- Python-dict insertion for the `percepts` dictionary: an existing key has
its value replaced in place, a new key is appended. -/
def dictInsert (d : List (Loc × PerceptT × Nat)) (k : Loc) (v : PerceptT × Nat) :
    List (Loc × PerceptT × Nat) :=
  if (d.map Prod.fst).contains k then
    d.map (fun e => if e.1 = k then (k, v) else e)
  else d ++ [(k, v)]

/-- The keys of the `percepts` dictionary: the locations at which a percept
has been recorded. -/
def perceptKeys (kb : KB) : List Loc := kb.percepts.map Prod.fst

/-- `_infer_pits`: on a breeze, every adjacent cell not confirmed pit-free
becomes a pit candidate; on no breeze, every adjacent cell becomes pit-free
and is discarded from the candidates. -/
def inferPits (kb : KB) (breeze : String) : KB :=
  let adj := adjacent kb.agent_location
  if breeze = "Breeze" then
    { kb with possible_pit_locations := kb.possible_pit_locations ∪ (adj \ kb.no_pit_locations) }
  else
    { kb with no_pit_locations := kb.no_pit_locations ∪ adj,
              possible_pit_locations := kb.possible_pit_locations \ adj }

/-- `set.intersection(*(self._get_adjacent(s) for s in S))` for the nonempty
stench set `S`: the grid cells adjacent to every member of `S` (each adjacency
set is a subset of the grid, so filtering the grid is exact). -/
def interAdj (S : Finset Loc) : Finset Loc :=
  allLocations.filter (fun l => ∀ s ∈ S, l ∈ adjacent s)

/-- `_infer_wumpus_location_from_stench`. -/
def inferWumpus (kb : KB) (stench : String) : KB :=
  if stench ≠ "Stench" then
    { kb with no_stench_locations := insert kb.agent_location kb.no_stench_locations,
              no_wumpus_locations := kb.no_wumpus_locations ∪ adjacent kb.agent_location,
              possible_wumpus_locations :=
                kb.possible_wumpus_locations \ adjacent kb.agent_location }
  else
    let S := insert kb.agent_location kb.stench_locations
    { kb with stench_locations := S,
              possible_wumpus_locations := interAdj S \ kb.no_wumpus_locations }

/-- The movement deltas `{'East': (1,0), 'West': (-1,0), 'North': (0,1),
'South': (0,-1)}`. -/
def delta : Dir → Loc
  | Dir.East => (1, 0)
  | Dir.West => (-1, 0)
  | Dir.North => (0, 1)
  | Dir.South => (0, -1)

/-- `turn_left`: `dirs = ['North','West','South','East']`, next index mod 4. -/
def turnLeftDir : Dir → Dir
  | Dir.North => Dir.West
  | Dir.West => Dir.South
  | Dir.South => Dir.East
  | Dir.East => Dir.North

/-- `turn_right`: `dirs = ['North','East','South','West']`, next index mod 4. -/
def turnRightDir : Dir → Dir
  | Dir.North => Dir.East
  | Dir.East => Dir.South
  | Dir.South => Dir.West
  | Dir.West => Dir.North

/-- `_update_agent_state`: move-forward updates the pose only inside the grid,
grab sets `has_gold`, the turns rotate the facing; other actions change
nothing here. -/
def updateAgentState (kb : KB) (a : Action) : KB :=
  match a with
  | Action.move_forward =>
      let n : Loc := (kb.agent_location.1 + (delta kb.agent_direction).1,
                      kb.agent_location.2 + (delta kb.agent_direction).2)
      if n ∈ allLocations then { kb with agent_location := n } else kb
  | Action.grab => { kb with has_gold := true }
  | Action.turn_left => { kb with agent_direction := turnLeftDir kb.agent_direction }
  | Action.turn_right => { kb with agent_direction := turnRightDir kb.agent_direction }
  | Action.shoot => kb
  | Action.climb => kb

/-- `KnowledgeBase.tell`.  An action sentence delegates to
`_update_agent_state`; a percept sentence records the visit (the
`safe_locations.add` line recomputes the stored safe set from the *current*
fields, then adds the agent's location to that stored copy), stores the
percept, runs both inference rules, and updates gold, scream and
`previous_location` bookkeeping in source order. -/
def tell (kb : KB) (s : Sentence) : KB :=
  match s with
  | Sentence.action a _ => updateAgentState kb a
  | Sentence.percept p t =>
    let L := kb.agent_location
    let kb1 : KB :=
      { kb with visited := insert L kb.visited,
                safe_locations_store := insert L (safeDerived kb),
                no_pit_locations := insert L kb.no_pit_locations,
                no_wumpus_locations := insert L kb.no_wumpus_locations,
                percepts := dictInsert kb.percepts L (p, t) }
    let kb2 := inferPits kb1 p.breeze
    let kb3 := inferWumpus kb2 p.stench
    let kb4 : KB :=
      if p.glitter = "Glitter" ∧ kb3.has_gold = false then
        { kb3 with gold_location := some L }
      else if p.glitter ≠ "Glitter" then { kb3 with gold_location := none }
      else kb3
    let kb5 : KB :=
      if p.scream = "Scream" then
        { kb4 with wumpus_alive := false, possible_wumpus_locations := ∅ }
      else kb4
    { kb5 with previous_location := some L }

/-- Feeding a list of sentences through `tell`, in order. -/
def run (kb : KB) (l : List Sentence) : KB := l.foldl tell kb

/-- Belief states reachable from the initial knowledge base by some sequence
of `tell` calls. -/
def Reachable (kb : KB) : Prop := ∃ l : List Sentence, run initKB l = kb

/-- `next(iter(s))` for a set of locations: the first member in iteration
order.  Python's set order is unspecified; this embedding scans the grid in
row-major order (the source only ever extracts from a one-element subset of
the grid, where every order agrees). -/
def pickOne (s : Finset Loc) : Option Loc :=
  gridList.find? (fun l => decide (l ∈ s))

/-- A read of the `wumpus_location` property: resolves and caches the wumpus
location the first time the candidate set has exactly one element, and
returns the cached value ever after. -/
def wumpusQuery (kb : KB) : KB × Option Loc :=
  if kb.wumpus_location_cache = none ∧ kb.possible_wumpus_locations.card = 1 then
    let w := pickOne kb.possible_wumpus_locations
    ({ kb with wumpus_location_cache := w }, w)
  else (kb, kb.wumpus_location_cache)

/-- `_direction_to`: East/West on a strict x difference, else North on a
strict y increase, else South. -/
def directionTo (kb : KB) (target : Loc) : Dir :=
  if kb.agent_location.1 < target.1 then Dir.East
  else if target.1 < kb.agent_location.1 then Dir.West
  else if kb.agent_location.2 < target.2 then Dir.North
  else Dir.South

/-- Index into `dirs = ['North', 'East', 'South', 'West']`. -/
def dirIndex : Dir → Int
  | Dir.North => 0
  | Dir.East => 1
  | Dir.South => 2
  | Dir.West => 3

/-- `_next_action_toward_target`: move forward when aligned, else turn right
exactly when the required turn is 90° clockwise (`(target_idx - current_idx)
% 4 == 1`, Python's nonnegative mod), else turn left. -/
def nextActionToward (kb : KB) (target : Loc) : Action :=
  let d := directionTo kb target
  if d = kb.agent_direction then Action.move_forward
  else if (dirIndex d - dirIndex kb.agent_direction) % 4 = 1 then Action.turn_right
  else Action.turn_left

/-- One expansion step of `_find_path_to`'s loop: the neighbors of `c` that
are safe, visited, and not yet expanded, paired with their extended paths, in
the source's adjacency delta order. -/
def bfsNeighbors (sv : Finset Loc) (vis : Finset Loc) (c : Loc) (p : List Loc) :
    List (Loc × List Loc) :=
  ((adjacentList c).filter (fun n => decide (n ∈ sv) && decide (n ∉ vis))).map
    (fun n => (n, p ++ [n]))

/-- The loop of `_find_path_to` over the deque of `(location, path)` pairs:
pop; return the path on reaching the target; skip expanded locations; else
mark expanded and enqueue the safe-visited unexpanded neighbors.  The Python
loop needs no fuel: every queued location beyond the start lies in the fixed
safe-and-visited set `sv`, so on reachable belief states (whose sets lie in
the 4×4 grid) the loop pops fewer than `1 + 5 * 17 < 100` entries before the
queue empties; the fuel argument of 100 therefore never binds there (the
completeness theorem below verifies this bound), and the function is
structurally recursive so that it evaluates. -/
def bfsLoop (sv : Finset Loc) (target : Loc) :
    Nat → List (Loc × List Loc) → Finset Loc → List Loc
  | 0, _, _ => []
  | _ + 1, [], _ => []
  | fuel + 1, (c, p) :: rest, vis =>
    if c = target then p
    else if c ∈ vis then bfsLoop sv target fuel rest vis
    else bfsLoop sv target fuel (rest ++ bfsNeighbors sv (insert c vis) c p) (insert c vis)

/-- `_find_path_to`: BFS from the agent's location through cells that are
both safe and visited, as above. -/
def findPathTo (kb : KB) (target : Loc) : List Loc :=
  bfsLoop (safeDerived kb ∩ kb.visited) target 100 [(kb.agent_location, [])] ∅

/-- `_navigate_to`: no action at the target; a single step toward a safe
adjacent target; otherwise the first step of the BFS path, or failure (`none`)
when the BFS returns an empty path. -/
def navigateTo (kb : KB) (target : Loc) : Option Action :=
  if kb.agent_location = target then none
  else if target ∈ (adjacentList kb.agent_location).filter
      (fun l => decide (l ∈ safeDerived kb)) then
    some (nextActionToward kb target)
  else
    match findPathTo kb target with
    | [] => none
    | next :: _ => some (nextActionToward kb next)

/-- The per-neighbor danger penalty of `_explore_safe`: 0.2 for a pit
candidate, else 0.3 for a wumpus candidate, else 0 (exact rationals for the
source's floats). -/
def dangerOf (kb : KB) (n : Loc) : ℚ :=
  if n ∈ kb.possible_pit_locations then 2/10
  else if n ∈ kb.possible_wumpus_locations then 3/10
  else 0

/-- The exploration score `1.0 - danger * 0.25` of a candidate cell, where
`danger` sums the penalties of the candidate's own neighbors. -/
def locationScore (kb : KB) (cand : Loc) : ℚ :=
  1 - ((adjacentList cand).map (dangerOf kb)).sum * (1/4)

/-- The fallback candidate list of `_explore_safe`: safe cells adjacent to
the agent, in the source's adjacency delta order. -/
def candidatesOf (kb : KB) : List Loc :=
  (adjacentList kb.agent_location).filter (fun l => decide (l ∈ safeDerived kb))

/-- `_explore_safe`: return an action toward the first safe unvisited cell
adjacent to the agent (the source iterates the safe-unvisited set in
unspecified hash order; this embedding scans the grid row-major — only grid
cells can pass the adjacency test, so the scan sees every cell the source's
loop could return); else pick the best-scoring safe adjacent cell (Python's
`max`: the first candidate strictly exceeding the running best replaces it);
else no action. -/
def exploreSafe (kb : KB) : Option Action :=
  let su := safeDerived kb \ kb.visited
  match gridList.find?
      (fun l => decide (l ∈ su) && decide (l ∈ adjacent kb.agent_location)) with
  | some l => some (nextActionToward kb l)
  | none =>
    match candidatesOf kb with
    | [] => none
    | c :: cs =>
      some (nextActionToward kb
        (cs.foldl (fun b x => if locationScore kb b < locationScore kb x then x else b) c))

/-! ### Field equations for `tell` on a percept sentence -/

section TellEquations

variable (kb : KB) (p : PerceptT) (t : Nat)

theorem tell_percept_visited :
    (tell kb (Sentence.percept p t)).visited = insert kb.agent_location kb.visited := by
  by_cases hb : p.breeze = "Breeze" <;> by_cases hs : p.stench = "Stench" <;>
    by_cases hg : p.glitter = "Glitter" <;> by_cases hc : p.scream = "Scream" <;>
    by_cases hgold : kb.has_gold <;>
    simp [tell, inferPits, inferWumpus, hb, hs, hg, hc, hgold]

theorem tell_percept_agent_location :
    (tell kb (Sentence.percept p t)).agent_location = kb.agent_location := by
  by_cases hb : p.breeze = "Breeze" <;> by_cases hs : p.stench = "Stench" <;>
    by_cases hg : p.glitter = "Glitter" <;> by_cases hc : p.scream = "Scream" <;>
    by_cases hgold : kb.has_gold <;>
    simp [tell, inferPits, inferWumpus, hb, hs, hg, hc, hgold]

theorem tell_percept_agent_direction :
    (tell kb (Sentence.percept p t)).agent_direction = kb.agent_direction := by
  by_cases hb : p.breeze = "Breeze" <;> by_cases hs : p.stench = "Stench" <;>
    by_cases hg : p.glitter = "Glitter" <;> by_cases hc : p.scream = "Scream" <;>
    by_cases hgold : kb.has_gold <;>
    simp [tell, inferPits, inferWumpus, hb, hs, hg, hc, hgold]

theorem tell_percept_percepts :
    (tell kb (Sentence.percept p t)).percepts =
      dictInsert kb.percepts kb.agent_location (p, t) := by
  by_cases hb : p.breeze = "Breeze" <;> by_cases hs : p.stench = "Stench" <;>
    by_cases hg : p.glitter = "Glitter" <;> by_cases hc : p.scream = "Scream" <;>
    by_cases hgold : kb.has_gold <;>
    simp [tell, inferPits, inferWumpus, hb, hs, hg, hc, hgold]

theorem tell_percept_no_pit :
    (tell kb (Sentence.percept p t)).no_pit_locations =
      if p.breeze = "Breeze" then insert kb.agent_location kb.no_pit_locations
      else insert kb.agent_location kb.no_pit_locations ∪ adjacent kb.agent_location := by
  by_cases hb : p.breeze = "Breeze" <;> by_cases hs : p.stench = "Stench" <;>
    by_cases hg : p.glitter = "Glitter" <;> by_cases hc : p.scream = "Scream" <;>
    by_cases hgold : kb.has_gold <;>
    simp [tell, inferPits, inferWumpus, hb, hs, hg, hc, hgold]

theorem tell_percept_poss_pit :
    (tell kb (Sentence.percept p t)).possible_pit_locations =
      if p.breeze = "Breeze" then
        kb.possible_pit_locations ∪
          (adjacent kb.agent_location \ insert kb.agent_location kb.no_pit_locations)
      else kb.possible_pit_locations \ adjacent kb.agent_location := by
  by_cases hb : p.breeze = "Breeze" <;> by_cases hs : p.stench = "Stench" <;>
    by_cases hg : p.glitter = "Glitter" <;> by_cases hc : p.scream = "Scream" <;>
    by_cases hgold : kb.has_gold <;>
    simp [tell, inferPits, inferWumpus, hb, hs, hg, hc, hgold]

theorem tell_percept_stench_locations :
    (tell kb (Sentence.percept p t)).stench_locations =
      if p.stench = "Stench" then insert kb.agent_location kb.stench_locations
      else kb.stench_locations := by
  by_cases hb : p.breeze = "Breeze" <;> by_cases hs : p.stench = "Stench" <;>
    by_cases hg : p.glitter = "Glitter" <;> by_cases hc : p.scream = "Scream" <;>
    by_cases hgold : kb.has_gold <;>
    simp [tell, inferPits, inferWumpus, hb, hs, hg, hc, hgold]

theorem tell_percept_no_stench :
    (tell kb (Sentence.percept p t)).no_stench_locations =
      if p.stench = "Stench" then kb.no_stench_locations
      else insert kb.agent_location kb.no_stench_locations := by
  by_cases hb : p.breeze = "Breeze" <;> by_cases hs : p.stench = "Stench" <;>
    by_cases hg : p.glitter = "Glitter" <;> by_cases hc : p.scream = "Scream" <;>
    by_cases hgold : kb.has_gold <;>
    simp [tell, inferPits, inferWumpus, hb, hs, hg, hc, hgold]

theorem tell_percept_no_wumpus :
    (tell kb (Sentence.percept p t)).no_wumpus_locations =
      if p.stench = "Stench" then insert kb.agent_location kb.no_wumpus_locations
      else insert kb.agent_location kb.no_wumpus_locations ∪ adjacent kb.agent_location := by
  by_cases hb : p.breeze = "Breeze" <;> by_cases hs : p.stench = "Stench" <;>
    by_cases hg : p.glitter = "Glitter" <;> by_cases hc : p.scream = "Scream" <;>
    by_cases hgold : kb.has_gold <;>
    simp [tell, inferPits, inferWumpus, hb, hs, hg, hc, hgold]

theorem tell_percept_poss_wumpus :
    (tell kb (Sentence.percept p t)).possible_wumpus_locations =
      if p.scream = "Scream" then ∅
      else if p.stench = "Stench" then
        interAdj (insert kb.agent_location kb.stench_locations) \
          insert kb.agent_location kb.no_wumpus_locations
      else kb.possible_wumpus_locations \ adjacent kb.agent_location := by
  by_cases hb : p.breeze = "Breeze" <;> by_cases hs : p.stench = "Stench" <;>
    by_cases hg : p.glitter = "Glitter" <;> by_cases hc : p.scream = "Scream" <;>
    by_cases hgold : kb.has_gold <;>
    simp [tell, inferPits, inferWumpus, hb, hs, hg, hc, hgold]

theorem tell_percept_alive :
    (tell kb (Sentence.percept p t)).wumpus_alive =
      if p.scream = "Scream" then false else kb.wumpus_alive := by
  by_cases hb : p.breeze = "Breeze" <;> by_cases hs : p.stench = "Stench" <;>
    by_cases hg : p.glitter = "Glitter" <;> by_cases hc : p.scream = "Scream" <;>
    by_cases hgold : kb.has_gold <;>
    simp [tell, inferPits, inferWumpus, hb, hs, hg, hc, hgold]

theorem tell_percept_gold :
    (tell kb (Sentence.percept p t)).gold_location =
      if p.glitter = "Glitter" ∧ kb.has_gold = false then some kb.agent_location
      else if p.glitter ≠ "Glitter" then none
      else kb.gold_location := by
  by_cases hb : p.breeze = "Breeze" <;> by_cases hs : p.stench = "Stench" <;>
    by_cases hg : p.glitter = "Glitter" <;> by_cases hc : p.scream = "Scream" <;>
    by_cases hgold : kb.has_gold <;>
    simp [tell, inferPits, inferWumpus, hb, hs, hg, hc, hgold]

theorem tell_percept_has_gold :
    (tell kb (Sentence.percept p t)).has_gold = kb.has_gold := by
  by_cases hb : p.breeze = "Breeze" <;> by_cases hs : p.stench = "Stench" <;>
    by_cases hg : p.glitter = "Glitter" <;> by_cases hc : p.scream = "Scream" <;>
    by_cases hgold : kb.has_gold <;>
    simp [tell, inferPits, inferWumpus, hb, hs, hg, hc, hgold]

theorem tell_percept_has_arrow :
    (tell kb (Sentence.percept p t)).has_arrow = kb.has_arrow := by
  by_cases hb : p.breeze = "Breeze" <;> by_cases hs : p.stench = "Stench" <;>
    by_cases hg : p.glitter = "Glitter" <;> by_cases hc : p.scream = "Scream" <;>
    by_cases hgold : kb.has_gold <;>
    simp [tell, inferPits, inferWumpus, hb, hs, hg, hc, hgold]

theorem tell_percept_cache :
    (tell kb (Sentence.percept p t)).wumpus_location_cache = kb.wumpus_location_cache := by
  by_cases hb : p.breeze = "Breeze" <;> by_cases hs : p.stench = "Stench" <;>
    by_cases hg : p.glitter = "Glitter" <;> by_cases hc : p.scream = "Scream" <;>
    by_cases hgold : kb.has_gold <;>
    simp [tell, inferPits, inferWumpus, hb, hs, hg, hc, hgold]

theorem tell_percept_previous :
    (tell kb (Sentence.percept p t)).previous_location = some kb.agent_location := by
  by_cases hb : p.breeze = "Breeze" <;> by_cases hs : p.stench = "Stench" <;>
    by_cases hg : p.glitter = "Glitter" <;> by_cases hc : p.scream = "Scream" <;>
    by_cases hgold : kb.has_gold <;>
    simp [tell, inferPits, inferWumpus, hb, hs, hg, hc, hgold]

end TellEquations

/-! ### Field equations for `tell` on an action sentence -/

theorem tell_action_frame (kb : KB) (a : Action) (t : Nat) :
    (tell kb (Sentence.action a t)).visited = kb.visited ∧
    (tell kb (Sentence.action a t)).percepts = kb.percepts ∧
    (tell kb (Sentence.action a t)).stench_locations = kb.stench_locations ∧
    (tell kb (Sentence.action a t)).no_stench_locations = kb.no_stench_locations ∧
    (tell kb (Sentence.action a t)).possible_wumpus_locations = kb.possible_wumpus_locations ∧
    (tell kb (Sentence.action a t)).no_wumpus_locations = kb.no_wumpus_locations ∧
    (tell kb (Sentence.action a t)).wumpus_location_cache = kb.wumpus_location_cache ∧
    (tell kb (Sentence.action a t)).no_pit_locations = kb.no_pit_locations ∧
    (tell kb (Sentence.action a t)).possible_pit_locations = kb.possible_pit_locations ∧
    (tell kb (Sentence.action a t)).gold_location = kb.gold_location ∧
    (tell kb (Sentence.action a t)).wumpus_alive = kb.wumpus_alive ∧
    (tell kb (Sentence.action a t)).has_arrow = kb.has_arrow ∧
    (tell kb (Sentence.action a t)).previous_location = kb.previous_location ∧
    (tell kb (Sentence.action a t)).safe_locations_store = kb.safe_locations_store ∧
    (tell kb (Sentence.action a t)).stench_locations = kb.stench_locations := by
  cases a <;> simp only [tell, updateAgentState] <;> (try split) <;> simp

/-! ### Dictionary lemmas -/

theorem dictInsert_map_fst (d : List (Loc × PerceptT × Nat)) (k : Loc) (v : PerceptT × Nat) :
    (dictInsert d k v).map Prod.fst =
      if (d.map Prod.fst).contains k then d.map Prod.fst else d.map Prod.fst ++ [k] := by
  unfold dictInsert
  split
  · rw [List.map_map]
    refine List.map_congr_left (fun e _ => ?_)
    by_cases h : e.1 = k <;> simp [h]
  · simp

theorem dictInsert_of_contains (d : List (Loc × PerceptT × Nat)) (k : Loc)
    (v : PerceptT × Nat) (h : (d.map Prod.fst).contains k = true) :
    dictInsert d k v = d.map (fun e => if e.1 = k then (k, v) else e) := by
  unfold dictInsert
  rw [if_pos h]

theorem dictInsert_of_not_contains (d : List (Loc × PerceptT × Nat)) (k : Loc)
    (v : PerceptT × Nat) (h : ¬ (d.map Prod.fst).contains k = true) :
    dictInsert d k v = d ++ [(k, v)] := by
  unfold dictInsert
  rw [if_neg h]

theorem dictInsert_idem (d : List (Loc × PerceptT × Nat)) (k : Loc) (v : PerceptT × Nat) :
    dictInsert (dictInsert d k v) k v = dictInsert d k v := by
  have hk : ((dictInsert d k v).map Prod.fst).contains k = true := by
    rw [dictInsert_map_fst]
    split
    · assumption
    · rw [List.elem_iff]
      simp
  by_cases h : (d.map Prod.fst).contains k = true
  · rw [dictInsert_of_contains _ _ _ hk, dictInsert_of_contains _ _ _ h, List.map_map]
    refine List.map_congr_left (fun e _ => ?_)
    by_cases he : e.1 = k <;> simp [he]
  · have hmem : ∀ e ∈ d, e.1 ≠ k := by
      intro e he hek
      refine h ?_
      rw [List.elem_iff]
      exact List.mem_map.mpr ⟨e, he, hek⟩
    rw [dictInsert_of_contains _ _ _ hk, dictInsert_of_not_contains _ _ _ h,
      List.map_append]
    congr 1
    · refine (List.map_congr_left (fun e he => ?_)).trans (List.map_id d)
      rw [if_neg (hmem e he)]
      rfl
    · simp

/-! ### Claim theorems: C1, C10, C7 -/

/-- **C1** (confirmed, proved for every belief state, hence in particular for
every state reachable by `tell` calls): a read of the derived `safe_locations`
property returns `no_pit_locations` exactly when `wumpus_alive` is false, and
`no_pit_locations \ possible_wumpus_locations` when `wumpus_alive` is true. -/
theorem safety_derivation (kb : KB) :
    (kb.wumpus_alive = false → (safeLocationsRead kb).2 = kb.no_pit_locations) ∧
    (kb.wumpus_alive = true →
      (safeLocationsRead kb).2 = kb.no_pit_locations \ kb.possible_wumpus_locations) := by
  constructor <;> intro h <;> simp [safeLocationsRead, safeDerived, h]

/-- Witness for C1 at the initial knowledge base (wumpus alive). -/
theorem safety_derivation_witness :
    (safeLocationsRead initKB).2 =
      initKB.no_pit_locations \ initKB.possible_wumpus_locations :=
  (safety_derivation initKB).2 rfl

/-- **C10** (confirmed): a `tell` with an action sentence changes at most the
agent pose (`agent_location`, `agent_direction`) and `has_gold`; `visited`,
the percept log, the stench/no-stench sets, the possible and confirmed pit
and wumpus sets, the cached wumpus location, `gold_location`, `wumpus_alive`,
`has_arrow`, and `previous_location` are all unchanged. -/
theorem action_tell_frame (kb : KB) (a : Action) (t : Nat) :
    (tell kb (Sentence.action a t)).visited = kb.visited ∧
    (tell kb (Sentence.action a t)).percepts = kb.percepts ∧
    (tell kb (Sentence.action a t)).stench_locations = kb.stench_locations ∧
    (tell kb (Sentence.action a t)).no_stench_locations = kb.no_stench_locations ∧
    (tell kb (Sentence.action a t)).possible_wumpus_locations = kb.possible_wumpus_locations ∧
    (tell kb (Sentence.action a t)).no_wumpus_locations = kb.no_wumpus_locations ∧
    (tell kb (Sentence.action a t)).wumpus_location_cache = kb.wumpus_location_cache ∧
    (tell kb (Sentence.action a t)).no_pit_locations = kb.no_pit_locations ∧
    (tell kb (Sentence.action a t)).possible_pit_locations = kb.possible_pit_locations ∧
    (tell kb (Sentence.action a t)).gold_location = kb.gold_location ∧
    (tell kb (Sentence.action a t)).wumpus_alive = kb.wumpus_alive ∧
    (tell kb (Sentence.action a t)).has_arrow = kb.has_arrow ∧
    (tell kb (Sentence.action a t)).previous_location = kb.previous_location := by
  have h := tell_action_frame kb a t
  tauto

/-- **C7** (confirmed): replaying the same percept sentence immediately after
it was first processed leaves every listed belief-state component — and the
derived safe set — with the value it had after the first application.  (The
hidden `_safe_locations` backing field is not listed by the claim and indeed
can differ; the derived safe view is what the claim names and it agrees.) -/
theorem percept_tell_idempotent (kb : KB) (p : PerceptT) (t : Nat) :
    let k1 := tell kb (Sentence.percept p t)
    let k2 := tell k1 (Sentence.percept p t)
    k2.visited = k1.visited ∧
    k2.percepts = k1.percepts ∧
    k2.stench_locations = k1.stench_locations ∧
    k2.no_stench_locations = k1.no_stench_locations ∧
    k2.possible_pit_locations = k1.possible_pit_locations ∧
    k2.no_pit_locations = k1.no_pit_locations ∧
    k2.possible_wumpus_locations = k1.possible_wumpus_locations ∧
    k2.no_wumpus_locations = k1.no_wumpus_locations ∧
    k2.gold_location = k1.gold_location ∧
    k2.wumpus_alive = k1.wumpus_alive ∧
    k2.has_gold = k1.has_gold ∧
    k2.has_arrow = k1.has_arrow ∧
    k2.wumpus_location_cache = k1.wumpus_location_cache ∧
    k2.agent_location = k1.agent_location ∧
    k2.agent_direction = k1.agent_direction ∧
    k2.previous_location = k1.previous_location ∧
    (safeLocationsRead k2).2 = (safeLocationsRead k1).2 := by
  intro k1 k2
  have hL : k1.agent_location = kb.agent_location := tell_percept_agent_location kb p t
  have hvis : k2.visited = k1.visited := by
    rw [tell_percept_visited k1 p t, tell_percept_visited kb p t, hL]
    simp
  have hper : k2.percepts = k1.percepts := by
    rw [tell_percept_percepts k1 p t, tell_percept_percepts kb p t, hL,
      dictInsert_idem]
  have hst : k2.stench_locations = k1.stench_locations := by
    rw [tell_percept_stench_locations k1 p t, tell_percept_stench_locations kb p t, hL]
    by_cases hs : p.stench = "Stench" <;> simp [hs]
  have hnst : k2.no_stench_locations = k1.no_stench_locations := by
    rw [tell_percept_no_stench k1 p t, tell_percept_no_stench kb p t, hL]
    by_cases hs : p.stench = "Stench" <;> simp [hs]
  have hnp : k2.no_pit_locations = k1.no_pit_locations := by
    rw [tell_percept_no_pit k1 p t, tell_percept_no_pit kb p t, hL]
    by_cases hb : p.breeze = "Breeze"
    · simp [hb]
    · simp only [if_neg hb]
      ext x
      simp
      try tauto
  have hpp : k2.possible_pit_locations = k1.possible_pit_locations := by
    rw [tell_percept_poss_pit k1 p t, tell_percept_poss_pit kb p t,
      tell_percept_no_pit kb p t, hL]
    by_cases hb : p.breeze = "Breeze"
    · simp only [if_pos hb]
      ext x
      simp
      try tauto
    · simp only [if_neg hb]
      ext x
      simp
      try tauto
  have hnw : k2.no_wumpus_locations = k1.no_wumpus_locations := by
    rw [tell_percept_no_wumpus k1 p t, tell_percept_no_wumpus kb p t, hL]
    by_cases hs : p.stench = "Stench"
    · simp [hs]
    · simp only [if_neg hs]
      ext x
      simp
      try tauto
  have hpw : k2.possible_wumpus_locations = k1.possible_wumpus_locations := by
    rw [tell_percept_poss_wumpus k1 p t, tell_percept_poss_wumpus kb p t,
      tell_percept_stench_locations kb p t, tell_percept_no_wumpus kb p t, hL]
    by_cases hsc : p.scream = "Scream"
    · simp [hsc]
    · rw [if_neg hsc, if_neg hsc]
      by_cases hs : p.stench = "Stench"
      · simp only [if_pos hs]
        simp
      · simp only [if_neg hs]
        ext x
        simp
        try tauto
  have hgold : k2.gold_location = k1.gold_location := by
    rw [tell_percept_gold k1 p t, tell_percept_has_gold kb p t, hL]
    by_cases hg : p.glitter = "Glitter"
    · by_cases hhg : kb.has_gold
      · rw [tell_percept_gold kb p t]
        simp [hg, hhg]
      · rw [tell_percept_gold kb p t]
        simp [hg, hhg]
    · rw [tell_percept_gold kb p t]
      simp [hg]
  have halive : k2.wumpus_alive = k1.wumpus_alive := by
    rw [tell_percept_alive k1 p t, tell_percept_alive kb p t]
    by_cases hsc : p.scream = "Scream" <;> simp [hsc]
  refine ⟨hvis, hper, hst, hnst, hpp, hnp, hpw, hnw, hgold, halive,
    tell_percept_has_gold k1 p t, tell_percept_has_arrow k1 p t,
    tell_percept_cache k1 p t, tell_percept_agent_location k1 p t,
    tell_percept_agent_direction k1 p t, ?_, ?_⟩
  · rw [tell_percept_previous k1 p t, tell_percept_previous kb p t, hL]
  · simp only [safeLocationsRead, safeDerived, halive, hnp, hpw]

/-! ### Monotonicity and invariant helpers -/

theorem run_append (kb : KB) (l m : List Sentence) :
    run kb (l ++ m) = run (run kb l) m := by
  simp [run, List.foldl_append]

theorem tell_visited_mono (kb : KB) (s : Sentence) : kb.visited ⊆ (tell kb s).visited := by
  cases s with
  | action a t => rw [(tell_action_frame kb a t).1]
  | percept p t =>
    rw [tell_percept_visited]
    exact Finset.subset_insert _ _

theorem tell_no_pit_mono (kb : KB) (s : Sentence) :
    kb.no_pit_locations ⊆ (tell kb s).no_pit_locations := by
  cases s with
  | action a t =>
    obtain ⟨-, -, -, -, -, -, -, h8, -⟩ := tell_action_frame kb a t
    rw [h8]
  | percept p t =>
    rw [tell_percept_no_pit]
    split
    · exact Finset.subset_insert _ _
    · exact (Finset.subset_insert _ _).trans Finset.subset_union_left

theorem tell_no_wumpus_mono (kb : KB) (s : Sentence) :
    kb.no_wumpus_locations ⊆ (tell kb s).no_wumpus_locations := by
  cases s with
  | action a t =>
    obtain ⟨-, -, -, -, -, h6, -⟩ := tell_action_frame kb a t
    rw [h6]
  | percept p t =>
    rw [tell_percept_no_wumpus]
    split
    · exact Finset.subset_insert _ _
    · exact (Finset.subset_insert _ _).trans Finset.subset_union_left

theorem tell_poss_pit_new (kb : KB) (s : Sentence) (x : Loc)
    (hx : x ∈ (tell kb s).possible_pit_locations) (hold : x ∉ kb.possible_pit_locations) :
    x ∈ adjacent kb.agent_location ∧ x ∉ (tell kb s).no_pit_locations ∧
      ∃ p t, s = Sentence.percept p t ∧ p.breeze = "Breeze" := by
  cases s with
  | action a t =>
    obtain ⟨-, -, -, -, -, -, -, -, h9, -⟩ := tell_action_frame kb a t
    rw [h9] at hx
    exact absurd hx hold
  | percept p t =>
    rw [tell_percept_poss_pit] at hx
    by_cases hb : p.breeze = "Breeze"
    · rw [if_pos hb, Finset.mem_union] at hx
      rcases hx with h | h
      · exact absurd h hold
      · rw [Finset.mem_sdiff] at h
        refine ⟨h.1, ?_, p, t, rfl, hb⟩
        rw [tell_percept_no_pit, if_pos hb]
        exact h.2
    · rw [if_neg hb, Finset.mem_sdiff] at hx
      exact absurd hx.1 hold

theorem tell_poss_pit_removed (kb : KB) (s : Sentence) (x : Loc)
    (h1 : x ∈ kb.possible_pit_locations) (h2 : x ∉ (tell kb s).possible_pit_locations) :
    x ∈ (tell kb s).no_pit_locations := by
  cases s with
  | action a t =>
    obtain ⟨-, -, -, -, -, -, -, -, h9, -⟩ := tell_action_frame kb a t
    rw [h9] at h2
    exact absurd h1 h2
  | percept p t =>
    rw [tell_percept_poss_pit] at h2
    rw [tell_percept_no_pit]
    by_cases hb : p.breeze = "Breeze"
    · rw [if_pos hb] at h2
      exact absurd (Finset.mem_union_left _ h1) h2
    · rw [if_neg hb] at h2 ⊢
      rw [Finset.mem_union]
      by_cases ha : x ∈ adjacent kb.agent_location
      · exact Or.inr ha
      · exact absurd (Finset.mem_sdiff.mpr ⟨h1, ha⟩) h2

theorem poss_pit_stay_out (m : List Sentence) (kb : KB) (x : Loc)
    (hout : x ∉ kb.possible_pit_locations) (hin : x ∈ kb.no_pit_locations) :
    x ∉ (run kb m).possible_pit_locations := by
  induction m generalizing kb with
  | nil => exact hout
  | cons s m ih =>
    have hin' := tell_no_pit_mono kb s hin
    have hout' : x ∉ (tell kb s).possible_pit_locations := fun hmem =>
      ((tell_poss_pit_new kb s x hmem hout).2.1) hin'
    exact ih (tell kb s) hout' hin'

theorem interAdj_anti {S T : Finset Loc} (h : S ⊆ T) : interAdj T ⊆ interAdj S := by
  intro x hx
  rw [interAdj, Finset.mem_filter] at hx ⊢
  exact ⟨hx.1, fun s hs => hx.2 s (h hs)⟩

/-- The stench-triangulation invariant: every grid cell adjacent to all
observed stench locations and not yet confirmed wumpus-free is still a
wumpus candidate.  It holds from initialization and is preserved by every
`tell` that carries no scream. -/
def WInv (kb : KB) : Prop :=
  interAdj kb.stench_locations \ kb.no_wumpus_locations ⊆ kb.possible_wumpus_locations

/-- A sentence that carries no kill-confirmation signal. -/
def ScreamFreeS : Sentence → Prop
  | Sentence.action _ _ => True
  | Sentence.percept p _ => p.scream ≠ "Scream"

instance : DecidablePred ScreamFreeS := fun s => by
  cases s with
  | action a t => exact isTrue trivial
  | percept p t => exact inferInstanceAs (Decidable (p.scream ≠ "Scream"))

/-- A sentence sequence without any scream percept. -/
def ScreamFree (l : List Sentence) : Prop := ∀ s ∈ l, ScreamFreeS s

instance : DecidablePred ScreamFree := fun l =>
  inferInstanceAs (Decidable (∀ s ∈ l, ScreamFreeS s))

theorem winv_init : WInv initKB := by
  rw [WInv]
  exact Finset.sdiff_subset_sdiff (Finset.filter_subset _ _) (Finset.Subset.refl _)

theorem winv_tell (kb : KB) (s : Sentence) (hw : WInv kb) (hs : ScreamFreeS s) :
    WInv (tell kb s) ∧
      (tell kb s).possible_wumpus_locations ⊆ kb.possible_wumpus_locations := by
  cases s with
  | action a t =>
    obtain ⟨-, -, h3, -, h5, h6, -⟩ := tell_action_frame kb a t
    constructor
    · rw [WInv, h3, h5, h6]
      exact hw
    · rw [h5]
  | percept p t =>
    have hscream : ¬ p.scream = "Scream" := hs
    constructor
    · rw [WInv, tell_percept_poss_wumpus, tell_percept_stench_locations,
        tell_percept_no_wumpus, if_neg hscream]
      by_cases hst : p.stench = "Stench"
      · rw [if_pos hst, if_pos hst, if_pos hst]
      · rw [if_neg hst, if_neg hst, if_neg hst]
        intro x hx
        rw [Finset.mem_sdiff, Finset.mem_union, Finset.mem_insert] at hx
        push_neg at hx
        obtain ⟨hxi, ⟨hxL, hxn⟩, hxa⟩ := hx
        rw [Finset.mem_sdiff]
        exact ⟨hw (Finset.mem_sdiff.mpr ⟨hxi, hxn⟩), hxa⟩
    · rw [tell_percept_poss_wumpus, if_neg hscream]
      by_cases hst : p.stench = "Stench"
      · rw [if_pos hst]
        intro x hx
        rw [Finset.mem_sdiff, Finset.mem_insert] at hx
        push_neg at hx
        exact hw (Finset.mem_sdiff.mpr
          ⟨interAdj_anti (Finset.subset_insert _ _) hx.1, hx.2.2⟩)
      · rw [if_neg hst]
        exact Finset.sdiff_subset

theorem winv_run (m : List Sentence) (kb : KB) (hw : WInv kb) (h : ScreamFree m) :
    WInv (run kb m) ∧
      (run kb m).possible_wumpus_locations ⊆ kb.possible_wumpus_locations := by
  induction m generalizing kb with
  | nil => exact ⟨hw, Finset.Subset.refl _⟩
  | cons s m ih =>
    have hsf : ScreamFreeS s := h s (List.mem_cons_self _ _)
    have hm : ScreamFree m := fun x hx => h x (List.mem_cons_of_mem _ hx)
    obtain ⟨h1, h2⟩ := winv_tell kb s hw hsf
    obtain ⟨h3, h4⟩ := ih (tell kb s) h1 hm
    exact ⟨h3, h4.trans h2⟩

theorem exclusion_step (kb : KB) (s : Sentence)
    (h1 : kb.possible_pit_locations ∩ kb.no_pit_locations ⊆ kb.visited)
    (h2 : kb.possible_wumpus_locations ∩ kb.no_wumpus_locations ⊆ kb.visited) :
    (tell kb s).possible_pit_locations ∩ (tell kb s).no_pit_locations ⊆
      (tell kb s).visited ∧
    (tell kb s).possible_wumpus_locations ∩ (tell kb s).no_wumpus_locations ⊆
      (tell kb s).visited := by
  cases s with
  | action a t =>
    obtain ⟨hv, -, -, -, h5, h6, -, h8, h9, -⟩ := tell_action_frame kb a t
    rw [hv, h5, h6, h8, h9]
    exact ⟨h1, h2⟩
  | percept p t =>
    constructor
    · rw [tell_percept_poss_pit, tell_percept_no_pit, tell_percept_visited]
      by_cases hb : p.breeze = "Breeze"
      · rw [if_pos hb, if_pos hb]
        intro x hx
        rw [Finset.mem_inter, Finset.mem_union] at hx
        obtain ⟨hxp, hxn⟩ := hx
        rcases hxp with h | h
        · rw [Finset.mem_insert] at hxn
          rcases hxn with rfl | hxn
          · exact Finset.mem_insert_self _ _
          · exact Finset.mem_insert_of_mem (h1 (Finset.mem_inter.mpr ⟨h, hxn⟩))
        · rw [Finset.mem_sdiff] at h
          exact absurd hxn h.2
      · rw [if_neg hb, if_neg hb]
        intro x hx
        rw [Finset.mem_inter, Finset.mem_sdiff] at hx
        obtain ⟨⟨hxp, hxa⟩, hxn⟩ := hx
        rw [Finset.mem_union, Finset.mem_insert] at hxn
        rcases hxn with (rfl | hxn) | hxa2
        · exact Finset.mem_insert_self _ _
        · exact Finset.mem_insert_of_mem (h1 (Finset.mem_inter.mpr ⟨hxp, hxn⟩))
        · exact absurd hxa2 hxa
    · rw [tell_percept_poss_wumpus, tell_percept_no_wumpus, tell_percept_visited]
      by_cases hsc : p.scream = "Scream"
      · rw [if_pos hsc]
        intro x hx
        rw [Finset.mem_inter] at hx
        exact absurd hx.1 (Finset.not_mem_empty x)
      · rw [if_neg hsc]
        by_cases hst : p.stench = "Stench"
        · rw [if_pos hst, if_pos hst]
          intro x hx
          rw [Finset.mem_inter, Finset.mem_sdiff] at hx
          exact absurd hx.2 hx.1.2
        · rw [if_neg hst, if_neg hst]
          intro x hx
          rw [Finset.mem_inter, Finset.mem_sdiff] at hx
          obtain ⟨⟨hxp, hxa⟩, hxn⟩ := hx
          rw [Finset.mem_union, Finset.mem_insert] at hxn
          rcases hxn with (rfl | hxn) | hxa2
          · exact Finset.mem_insert_self _ _
          · exact Finset.mem_insert_of_mem (h2 (Finset.mem_inter.mpr ⟨hxp, hxn⟩))
          · exact absurd hxa2 hxa

theorem exclusion_run (m : List Sentence) (kb : KB)
    (h1 : kb.possible_pit_locations ∩ kb.no_pit_locations ⊆ kb.visited)
    (h2 : kb.possible_wumpus_locations ∩ kb.no_wumpus_locations ⊆ kb.visited) :
    (run kb m).possible_pit_locations ∩ (run kb m).no_pit_locations ⊆
      (run kb m).visited ∧
    (run kb m).possible_wumpus_locations ∩ (run kb m).no_wumpus_locations ⊆
      (run kb m).visited := by
  induction m generalizing kb with
  | nil => exact ⟨h1, h2⟩
  | cons s m ih =>
    obtain ⟨g1, g2⟩ := exclusion_step kb s h1 h2
    exact ih (tell kb s) g1 g2

/-! ### Concrete percepts and sentence sequences -/

def perceptNone : PerceptT := ⟨"None", "None", "None", "None", "None"⟩

def perceptBreeze : PerceptT := ⟨"None", "Breeze", "None", "None", "None"⟩

def perceptStench : PerceptT := ⟨"Stench", "None", "None", "None", "None"⟩

def perceptStenchScream : PerceptT := ⟨"Stench", "None", "None", "None", "Scream"⟩

def perceptNoneScream : PerceptT := ⟨"None", "None", "None", "None", "Scream"⟩

/-- Breeze at (1,1), step east onto the pit candidate (2,1), breeze again:
the percept at (2,1) confirms it pit-free without removing its candidacy. -/
def exC2 : List Sentence :=
  [Sentence.percept perceptBreeze 0, Sentence.action Action.move_forward 1,
   Sentence.percept perceptBreeze 2]

/-! ### Claim theorems: C2, C3 -/

/-- **C2 counterexample**: after breeze at (1,1), a move east, and a breeze
percept at (2,1), the cell (2,1) is in `possible_pit_locations` and
`no_pit_locations` at once, so the stated exclusion invariant fails on a
reachable belief state. -/
theorem exclusion_invariant_counterexample :
    ¬ ((run initKB exC2).possible_pit_locations ∩ (run initKB exC2).no_pit_locations
        = ∅) := by
  decide

/-- **C2** (corrected).  Exclusion as stated fails where the agent itself has
perceived (the counterexample); amended: both intersections are always inside
`visited`, a location removed from `possible_pit_locations` never re-enters
it, and a location removed from `possible_wumpus_locations` never re-enters
it as long as no scream percept occurs in the episode (a stench percept after
a scream can re-admit cleared candidates). -/
theorem exclusion_invariant_amended :
    (∀ l : List Sentence,
      (run initKB l).possible_pit_locations ∩ (run initKB l).no_pit_locations ⊆
        (run initKB l).visited ∧
      (run initKB l).possible_wumpus_locations ∩ (run initKB l).no_wumpus_locations ⊆
        (run initKB l).visited) ∧
    (∀ (kb : KB) (s : Sentence) (m : List Sentence) (x : Loc),
      x ∈ kb.possible_pit_locations → x ∉ (tell kb s).possible_pit_locations →
      x ∉ (run (tell kb s) m).possible_pit_locations) ∧
    (∀ (l m : List Sentence) (s : Sentence) (x : Loc), ScreamFree (l ++ s :: m) →
      x ∈ (run initKB l).possible_wumpus_locations →
      x ∉ (run initKB (l ++ [s])).possible_wumpus_locations →
      x ∉ (run initKB (l ++ s :: m)).possible_wumpus_locations) := by
  refine ⟨fun l => ?_, fun kb s m x hin hout => ?_, fun l m s x hsf _ hout => ?_⟩
  · exact exclusion_run l initKB (by decide) (by decide)
  · exact poss_pit_stay_out m (tell kb s) x hout (tell_poss_pit_removed kb s x hin hout)
  · intro hmem
    have hsf1 : ScreamFree (l ++ [s]) := by
      intro u hu
      refine hsf u ?_
      rcases List.mem_append.mp hu with h | h
      · exact List.mem_append.mpr (Or.inl h)
      · rw [List.mem_singleton.mp h]
        exact List.mem_append.mpr (Or.inr (List.mem_cons_self _ _))
    have hsfm : ScreamFree m := by
      intro u hu
      exact hsf u (List.mem_append.mpr (Or.inr (List.mem_cons_of_mem _ hu)))
    have hw1 : WInv (run initKB (l ++ [s])) :=
      (winv_run (l ++ [s]) initKB winv_init hsf1).1
    have heq : run initKB (l ++ s :: m) = run (run initKB (l ++ [s])) m := by
      rw [show l ++ s :: m = (l ++ [s]) ++ m from by simp, run_append]
    rw [heq] at hmem
    exact hout ((winv_run m (run initKB (l ++ [s])) hw1 hsfm).2 hmem)

/-- Witness for C2: (2,1) becomes a pit candidate by the breeze at (1,1), is
removed by the no-breeze percept there, and stays out through a further
breeze percept. -/
theorem exclusion_invariant_witness :
    (2, 1) ∈ (run initKB [Sentence.percept perceptBreeze 0]).possible_pit_locations ∧
    (2, 1) ∉ (tell (run initKB [Sentence.percept perceptBreeze 0])
        (Sentence.percept perceptNone 1)).possible_pit_locations ∧
    (2, 1) ∉ (run (tell (run initKB [Sentence.percept perceptBreeze 0])
        (Sentence.percept perceptNone 1))
        [Sentence.percept perceptBreeze 2]).possible_pit_locations :=
  ⟨by decide, by decide,
    exclusion_invariant_amended.2.1 _ _ _ _ (by decide) (by decide)⟩

/-- **C3 counterexample**: a single breeze percept at (1,1) makes
`possible_pit_locations` grow from empty to `{(2,1),(1,2)}`, so the candidate
sets do not only shrink turn-over-turn. -/
theorem monotonicity_counterexample :
    ¬ ((run initKB [Sentence.percept perceptBreeze 0]).possible_pit_locations ⊆
        initKB.possible_pit_locations) := by
  decide

/-- **C3** (corrected).  `visited`, `no_pit_locations` and
`no_wumpus_locations` do only grow.  But `possible_pit_locations` grows
whenever a breeze admits adjacent cells not yet confirmed pit-free (the
counterexample), and `possible_wumpus_locations` shrinks turn-over-turn only
while no scream percept has occurred (a stench after a scream re-admits
candidates).  Amended accordingly. -/
theorem monotonicity_amended :
    (∀ (kb : KB) (s : Sentence),
      kb.visited ⊆ (tell kb s).visited ∧
      kb.no_pit_locations ⊆ (tell kb s).no_pit_locations ∧
      kb.no_wumpus_locations ⊆ (tell kb s).no_wumpus_locations) ∧
    (∀ (kb : KB) (s : Sentence) (x : Loc),
      x ∈ (tell kb s).possible_pit_locations → x ∉ kb.possible_pit_locations →
        x ∈ adjacent kb.agent_location ∧ x ∉ kb.no_pit_locations ∧
          ∃ p t, s = Sentence.percept p t ∧ p.breeze = "Breeze") ∧
    (∀ (l : List Sentence) (s : Sentence), ScreamFree (l ++ [s]) →
      (run initKB (l ++ [s])).possible_wumpus_locations ⊆
        (run initKB l).possible_wumpus_locations) := by
  refine ⟨fun kb s =>
    ⟨tell_visited_mono kb s, tell_no_pit_mono kb s, tell_no_wumpus_mono kb s⟩,
    fun kb s x hx hold => ?_, fun l s hsf => ?_⟩
  · obtain ⟨ha, hn, hp⟩ := tell_poss_pit_new kb s x hx hold
    refine ⟨ha, fun hmem => hn (tell_no_pit_mono kb s hmem), hp⟩
  · have hl : ScreamFree l := fun u hu => hsf u (List.mem_append.mpr (Or.inl hu))
    have hs : ScreamFreeS s := hsf s (List.mem_append.mpr (Or.inr (List.mem_cons_self _ _)))
    rw [run_append]
    exact (winv_run [s] (run initKB l) (winv_run l initKB winv_init hl).1
      (fun u hu => by rw [List.mem_singleton.mp hu]; exact hs)).2

/-- Witness for C3: the no-stench percept at (1,1) after a stench there
shrinks the wumpus-candidate set (scream-free sequence). -/
theorem monotonicity_witness :
    (run initKB ([Sentence.percept perceptStench 0] ++
        [Sentence.percept perceptNone 1])).possible_wumpus_locations ⊆
      (run initKB [Sentence.percept perceptStench 0]).possible_wumpus_locations :=
  monotonicity_amended.2.2 [Sentence.percept perceptStench 0]
    (Sentence.percept perceptNone 1) (by decide)

/-! ### Claim theorems: C4, C5, C6 -/

theorem adjacent_subset_all (l : Loc) : adjacent l ⊆ allLocations := by
  intro x hx
  rw [adjacent, List.mem_toFinset, adjacentList, List.mem_filterMap] at hx
  obtain ⟨d, -, hd⟩ := hx
  split at hd
  · rename_i hcond
    rw [Option.some.injEq] at hd
    subst hd
    rw [allLocations, Finset.mem_product, Finset.mem_Icc, Finset.mem_Icc]
    exact ⟨⟨hcond.1, hcond.2.1⟩, hcond.2.2.1, hcond.2.2.2⟩
  · exact absurd hd (by simp)

/-- For a nonempty stench set, `interAdj` is exactly the intersection of the
adjacency sets of its members (what `set.intersection(*...)` computes). -/
theorem mem_interAdj_of_nonempty {S : Finset Loc} (hS : S.Nonempty) (x : Loc) :
    x ∈ interAdj S ↔ ∀ s ∈ S, x ∈ adjacent s := by
  rw [interAdj, Finset.mem_filter]
  refine ⟨fun h => h.2, fun h => ?_⟩
  obtain ⟨s0, hs0⟩ := hS
  exact ⟨adjacent_subset_all s0 (h s0 hs0), h⟩

theorem tell_percept_keys (kb : KB) (p : PerceptT) (t : Nat) (x : Loc)
    (hx : x ∈ perceptKeys (tell kb (Sentence.percept p t))) :
    x ∈ perceptKeys kb ∨ x = kb.agent_location := by
  simp only [perceptKeys] at hx ⊢
  rw [tell_percept_percepts, dictInsert_map_fst] at hx
  split at hx
  · exact Or.inl hx
  · rw [List.mem_append] at hx
    rcases hx with h | h
    · exact Or.inl h
    · exact Or.inr (List.mem_singleton.mp h)

theorem percept_keys_cleared_aux (m : List Sentence) (kb : KB)
    (h : ∀ x ∈ perceptKeys kb, x ∈ kb.no_pit_locations ∧ x ∈ kb.no_wumpus_locations) :
    ∀ x ∈ perceptKeys (run kb m),
      x ∈ (run kb m).no_pit_locations ∧ x ∈ (run kb m).no_wumpus_locations := by
  induction m generalizing kb with
  | nil => exact h
  | cons s m ih =>
    refine ih (tell kb s) ?_
    intro x hx
    cases s with
    | action a t =>
      obtain ⟨-, h2, -, -, -, h6, -, h8, -⟩ := tell_action_frame kb a t
      rw [show perceptKeys (tell kb (Sentence.action a t)) = perceptKeys kb from by
        simp only [perceptKeys, h2]] at hx
      rw [h6, h8]
      exact h x hx
    | percept p t =>
      rcases tell_percept_keys kb p t x hx with h1 | rfl
      · obtain ⟨hp, hw⟩ := h x h1
        exact ⟨tell_no_pit_mono kb _ hp, tell_no_wumpus_mono kb _ hw⟩
      · constructor
        · rw [tell_percept_no_pit]
          split
          · exact Finset.mem_insert_self _ _
          · exact Finset.mem_union_left _ (Finset.mem_insert_self _ _)
        · rw [tell_percept_no_wumpus]
          split
          · exact Finset.mem_insert_self _ _
          · exact Finset.mem_union_left _ (Finset.mem_insert_self _ _)

/-- Stench at (1,1), step east onto the candidate (2,1), no-stench percept
there: (2,1) is perceived at but remains a wumpus candidate. -/
def exC4 : List Sentence :=
  [Sentence.percept perceptStench 0, Sentence.action Action.move_forward 1,
   Sentence.percept perceptNone 2]

/-- **C4 counterexample**: after stench at (1,1), a move east, and a
no-stench percept at (2,1), a percept is recorded at (2,1) but that cell is
absent from the derived safe set (it is still a wumpus candidate: no-stench
inference clears only the neighbors of (2,1), not (2,1) itself). -/
theorem percept_locations_safe_counterexample :
    (2, 1) ∈ perceptKeys (run initKB exC4) ∧
    (2, 1) ∉ (safeLocationsRead (run initKB exC4)).2 := by
  decide

/-- **C4** (corrected).  Every percept-recorded location is in
`no_pit_locations` and `no_wumpus_locations`; it is additionally in the
derived safe set whenever the wumpus is confirmed dead.  While the wumpus is
alive a perceived location can stay outside `safe` if it is still a wumpus
candidate (the counterexample). -/
theorem percept_locations_cleared (l : List Sentence) (x : Loc)
    (hx : x ∈ perceptKeys (run initKB l)) :
    x ∈ (run initKB l).no_pit_locations ∧ x ∈ (run initKB l).no_wumpus_locations ∧
    ((run initKB l).wumpus_alive = false → x ∈ (safeLocationsRead (run initKB l)).2) := by
  obtain ⟨h1, h2⟩ := percept_keys_cleared_aux l initKB (by decide) x hx
  refine ⟨h1, h2, fun hd => ?_⟩
  rw [safeLocationsRead]
  simp only [safeDerived, hd]
  simpa using h1

/-- Witness for C4 at the counterexample run and location. -/
theorem percept_locations_cleared_witness :
    (2, 1) ∈ (run initKB exC4).no_pit_locations ∧
    (2, 1) ∈ (run initKB exC4).no_wumpus_locations ∧
    ((run initKB exC4).wumpus_alive = false →
      (2, 1) ∈ (safeLocationsRead (run initKB exC4)).2) :=
  percept_locations_cleared exC4 (2, 1) (by decide)

/-- **C5 counterexample**: a percept carrying both stench and scream at
(1,1): the stench recomputation is followed by the scream clearing the set,
so the final candidate set (∅) is not the claimed intersection formula, even
though the stench signal was present. -/
theorem stench_recompute_counterexample :
    (run initKB [Sentence.percept perceptStenchScream 0]).possible_wumpus_locations ≠
      interAdj (run initKB
          [Sentence.percept perceptStenchScream 0]).stench_locations \
        (run initKB [Sentence.percept perceptStenchScream 0]).no_wumpus_locations := by
  decide

/-- **C5** (corrected).  For a percept whose stench signal is present *and
whose scream signal is absent*, the posterior wumpus-candidate set equals the
intersection, over every location where a stench has ever been observed, of
that location's neighbor set, minus the confirmed wumpus-free locations
(all sets taken after the `tell`); the (1,1)-then-(2,2) stench scenario
yielding {(2,1),(1,2)} is the witness. -/
theorem stench_recompute_amended (kb : KB) (p : PerceptT) (t : Nat)
    (hs : p.stench = "Stench") (hsc : p.scream ≠ "Scream") :
    (tell kb (Sentence.percept p t)).possible_wumpus_locations =
      interAdj (tell kb (Sentence.percept p t)).stench_locations \
        (tell kb (Sentence.percept p t)).no_wumpus_locations := by
  rw [tell_percept_poss_wumpus, tell_percept_stench_locations, tell_percept_no_wumpus,
    if_neg hsc, if_pos hs, if_pos hs, if_pos hs]

/-- Stench at (1,1), walk (1,1)→(2,1)→(2,2). -/
def exC5pre : List Sentence :=
  [Sentence.percept perceptStench 0, Sentence.action Action.move_forward 1,
   Sentence.action Action.turn_left 2, Sentence.action Action.move_forward 3]

/-- ... followed by a stench percept at (2,2). -/
def exC5 : List Sentence := exC5pre ++ [Sentence.percept perceptStench 4]

/-- Witness for C5: the stench-only percepts at (1,1) and (2,2) produce
exactly the intersection of their neighbor sets, {(2,1),(1,2)}. -/
theorem stench_recompute_witness :
    (run initKB exC5).possible_wumpus_locations =
      interAdj (run initKB exC5).stench_locations \
        (run initKB exC5).no_wumpus_locations ∧
    (run initKB exC5).possible_wumpus_locations = {(1, 2), (2, 1)} := by
  constructor
  · exact stench_recompute_amended (run initKB exC5pre) perceptStench 4
      (by decide) (by decide)
  · decide

/-! ### Wumpus-location cache stability (C6) -/

theorem tell_cache_eq (kb : KB) (s : Sentence) :
    (tell kb s).wumpus_location_cache = kb.wumpus_location_cache := by
  cases s with
  | action a t =>
    obtain ⟨-, -, -, -, -, -, h7, -⟩ := tell_action_frame kb a t
    exact h7
  | percept p t => exact tell_percept_cache kb p t

theorem run_cache_eq (m : List Sentence) (kb : KB) :
    (run kb m).wumpus_location_cache = kb.wumpus_location_cache := by
  induction m generalizing kb with
  | nil => rfl
  | cons s m ih =>
    rw [show run kb (s :: m) = run (tell kb s) m from rfl, ih, tell_cache_eq]

theorem wumpusQuery_cache (kb : KB) (w : Loc) (h : (wumpusQuery kb).2 = some w) :
    (wumpusQuery kb).1.wumpus_location_cache = some w := by
  by_cases hc : kb.wumpus_location_cache = none ∧ kb.possible_wumpus_locations.card = 1
  · rw [wumpusQuery, if_pos hc] at h ⊢
    simpa using h
  · rw [wumpusQuery, if_neg hc] at h ⊢
    simpa using h

theorem wumpusQuery_of_cache (kb : KB) (w : Loc)
    (h : kb.wumpus_location_cache = some w) : (wumpusQuery kb).2 = some w := by
  rw [wumpusQuery, if_neg]
  · exact h
  · intro hc
    rw [hc.1] at h
    exact Option.noConfusion h

/-- **C6** (confirmed): once a `wumpus_location` read has resolved to some
location, the cached `_wumpus_location` survives every further `tell`
(neither percepts nor actions write it; a scream only clears the candidate
set, which the resolved query never consults again), so every later read
returns the same location for the rest of the episode. -/
theorem wumpus_location_stable (kb : KB) (w : Loc)
    (h : (wumpusQuery kb).2 = some w) (l : List Sentence) :
    (wumpusQuery (run (wumpusQuery kb).1 l)).2 = some w := by
  refine wumpusQuery_of_cache _ w ?_
  rw [run_cache_eq, wumpusQuery_cache kb w h]

/-- Stench at (1,1) and at (3,1): the candidate set narrows to {(2,1)}. -/
def exC6 : List Sentence :=
  [Sentence.percept perceptStench 0, Sentence.action Action.move_forward 1,
   Sentence.action Action.move_forward 2, Sentence.percept perceptStench 3]

/-- Witness for C6: the resolved location (2,1) is still returned after a
scream percept clears the candidate set. -/
theorem wumpus_location_stable_witness :
    (wumpusQuery (run initKB exC6)).2 = some (2, 1) ∧
    (wumpusQuery (run (wumpusQuery (run initKB exC6)).1
        [Sentence.percept perceptNoneScream 4])).2 = some (2, 1) :=
  ⟨by decide, wumpus_location_stable (run initKB exC6) (2, 1) (by decide) _⟩

/-! ### Exploration (C9) -/

theorem mem_gridList_iff (x : Loc) : x ∈ gridList ↔ x ∈ allLocations := by
  rw [show allLocations = gridList.toFinset from by decide, List.mem_toFinset]

/-- Scream+clean at (1,1); east to (2,1) where a breeze makes (3,1) and
(2,2) pit candidates; north to (2,2), clean percept.  Safe unvisited
adjacent cells: (1,2), (2,3), (3,2) ... but with the agent at (2,2). -/
def exC9 : List Sentence :=
  [Sentence.percept perceptNoneScream 0, Sentence.action Action.move_forward 1,
   Sentence.percept perceptBreeze 2, Sentence.action Action.move_forward 3,
   Sentence.percept perceptNone 4]

/-- **C9 counterexample**: at the state after `exC9` (agent at (3,1), wumpus
dead, pit candidates {(3,1),(2,2)}), the safe unvisited adjacent cells are
(3,2) and (4,1); exploration returns the turn toward (3,2) — the first hit
of the set iteration — although (4,1) scores strictly higher (19/20 versus
9/10), whose action would be move-forward.  The loop returns before any
score is computed. -/
theorem explore_score_counterexample :
    exploreSafe (run initKB exC9) = some Action.turn_left ∧
    (safeDerived (run initKB exC9) \ (run initKB exC9).visited) ∩
      adjacent (run initKB exC9).agent_location = {(3, 2), (4, 1)} ∧
    nextActionToward (run initKB exC9) (4, 1) = Action.move_forward ∧
    Action.turn_left ≠ Action.move_forward ∧
    locationScore (run initKB exC9) (3, 2) < locationScore (run initKB exC9) (4, 1) := by
  refine ⟨by decide, by decide, by decide, by decide, ?_⟩
  have d1 : dangerOf (run initKB exC9) (4, 2) = 0 := by
    rw [dangerOf, if_neg (by decide), if_neg (by decide)]
  have d2 : dangerOf (run initKB exC9) (2, 2) = 2 / 10 := by
    rw [dangerOf, if_pos (by decide)]
  have d3 : dangerOf (run initKB exC9) (3, 3) = 0 := by
    rw [dangerOf, if_neg (by decide), if_neg (by decide)]
  have d4 : dangerOf (run initKB exC9) (3, 1) = 2 / 10 := by
    rw [dangerOf, if_pos (by decide)]
  rw [locationScore, locationScore,
    show adjacentList (3, 2) = [(4, 2), (2, 2), (3, 3), (3, 1)] from by decide,
    show adjacentList (4, 1) = [(3, 1), (4, 2)] from by decide]
  simp only [List.map_cons, List.map_nil, List.sum_cons, List.sum_nil, d1, d2, d3, d4]
  norm_num

/-- **C9** (corrected): whenever at least one safe unvisited cell is adjacent
to the agent, the exploration step returns an action toward *some* safe
unvisited adjacent cell — the first one in the iteration order of the
safe-unvisited set — without consulting the danger score (the counterexample
shows the chosen cell can score strictly below another candidate).  The
score-based maximum only governs the fallback among safe, possibly visited,
neighbors when no safe unvisited cell is adjacent. -/
theorem explore_prefers_unvisited (kb : KB)
    (h : ∃ c ∈ adjacent kb.agent_location, c ∈ safeDerived kb ∧ c ∉ kb.visited) :
    ∃ c ∈ adjacent kb.agent_location, c ∈ safeDerived kb ∧ c ∉ kb.visited ∧
      exploreSafe kb = some (nextActionToward kb c) := by
  obtain ⟨c0, hc0a, hc0s, hc0v⟩ := h
  have hsome : (gridList.find? (fun l => decide (l ∈ safeDerived kb \ kb.visited) &&
      decide (l ∈ adjacent kb.agent_location))).isSome := by
    rw [List.find?_isSome]
    refine ⟨c0, (mem_gridList_iff c0).mpr (adjacent_subset_all _ hc0a), ?_⟩
    simp only [Bool.and_eq_true, decide_eq_true_eq, Finset.mem_sdiff]
    exact ⟨⟨hc0s, hc0v⟩, hc0a⟩
  obtain ⟨c, hc⟩ := Option.isSome_iff_exists.mp hsome
  have hcp := List.find?_some hc
  simp only [Bool.and_eq_true, decide_eq_true_eq, Finset.mem_sdiff] at hcp
  refine ⟨c, hcp.2, hcp.1.1, hcp.1.2, ?_⟩
  simp only [exploreSafe]
  rw [hc]

/-- Witness for C9 at the counterexample state: some safe unvisited adjacent
cell is chosen (here (3,2)). -/
theorem explore_prefers_unvisited_witness :
    ∃ c ∈ adjacent (run initKB exC9).agent_location,
      c ∈ safeDerived (run initKB exC9) ∧ c ∉ (run initKB exC9).visited ∧
      exploreSafe (run initKB exC9) =
        some (nextActionToward (run initKB exC9) c) :=
  explore_prefers_unvisited (run initKB exC9) ⟨(3, 2), by decide, by decide, by decide⟩

/-! ### BFS reachability machinery (C8) -/

theorem mem_adjacent_iff (x c : Loc) : x ∈ adjacent c ↔ x ∈ adjacentList c :=
  List.mem_toFinset

theorem adjacent_irrefl (l : Loc) : l ∉ adjacent l := by
  intro h
  rw [adjacent, List.mem_toFinset, adjacentList, List.mem_filterMap] at h
  obtain ⟨d, hd, he⟩ := h
  split at he
  · rw [Option.some.injEq] at he
    have h1 : l.1 + d.1 = l.1 := congrArg Prod.fst he
    have h2 : l.2 + d.2 = l.2 := congrArg Prod.snd he
    fin_cases hd <;> omega
  · exact Option.noConfusion he

/-- An adjacency path through `sv` from a start cell to `target`: each listed
cell is grid-adjacent to its predecessor and lies in `sv`, and the walk ends
at `target` (for the empty list the start already is the target). -/
def PlainChain (sv : Finset Loc) (target : Loc) : Loc → List Loc → Prop
  | c, [] => c = target
  | c, x :: cells => x ∈ adjacent c ∧ x ∈ sv ∧ PlainChain sv target x cells

def plainChainDec (sv : Finset Loc) (target : Loc) :
    ∀ (c : Loc) (cells : List Loc), Decidable (PlainChain sv target c cells)
  | c, [] => inferInstanceAs (Decidable (c = target))
  | c, x :: cells =>
    haveI : Decidable (PlainChain sv target x cells) := plainChainDec sv target x cells
    inferInstanceAs (Decidable (x ∈ adjacent c ∧ x ∈ sv ∧ PlainChain sv target x cells))

instance (sv : Finset Loc) (target c : Loc) (cells : List Loc) :
    Decidable (PlainChain sv target c cells) := plainChainDec sv target c cells

/-- A `PlainChain` that additionally avoids the visited set `vis`, re-visits
nothing (the avoided set accumulates each passed cell), mirroring how the BFS
loop grows its expanded set. -/
def GoodChain (sv : Finset Loc) (target : Loc) : Finset Loc → Loc → List Loc → Prop
  | _, c, [] => c = target
  | vis, c, x :: cells => x ∈ adjacent c ∧ x ∈ sv ∧ x ∉ vis ∧
      GoodChain sv target (insert c vis) x cells

theorem goodChain_anti (sv : Finset Loc) (target : Loc) :
    ∀ (cells : List Loc) (vis vis' : Finset Loc) (c : Loc), vis ⊆ vis' →
      GoodChain sv target vis' c cells → GoodChain sv target vis c cells := by
  intro cells
  induction cells with
  | nil =>
    intro vis vis' c _ h
    exact h
  | cons x cs ih =>
    intro vis vis' c hsub h
    obtain ⟨h1, h2, h3, h4⟩ := h
    exact ⟨h1, h2, fun hx => h3 (hsub hx),
      ih _ _ _ (Finset.insert_subset_insert c hsub) h4⟩

theorem goodChain_insert (sv : Finset Loc) (target : Loc) (c : Loc) :
    ∀ (cells : List Loc) (vis : Finset Loc) (d : Loc),
      GoodChain sv target vis d cells → c ∉ cells →
      GoodChain sv target (insert c vis) d cells := by
  intro cells
  induction cells with
  | nil =>
    intro vis d h _
    exact h
  | cons x cs ih =>
    intro vis d h hc
    obtain ⟨h1, h2, h3, h4⟩ := h
    have hcx : c ≠ x := fun he => hc (he ▸ List.mem_cons_self _ _)
    refine ⟨h1, h2, ?_, ?_⟩
    · intro hmem
      rcases Finset.mem_insert.mp hmem with he | he
      · exact hcx he.symm
      · exact h3 he
    · have hrec := ih (insert d vis) x h4 (fun hm => hc (List.mem_cons_of_mem _ hm))
      rw [Finset.Insert.comm] at hrec
      exact hrec

theorem goodChain_extract (sv : Finset Loc) (target : Loc) :
    ∀ (cells : List Loc) (vis : Finset Loc) (d : Loc),
      GoodChain sv target vis d cells → ∀ c ∈ cells,
      ∃ w, GoodChain sv target vis c w := by
  intro cells
  induction cells with
  | nil =>
    intro vis d _ c hc
    exact absurd hc (List.not_mem_nil c)
  | cons x cs ih =>
    intro vis d h c hc
    obtain ⟨h1, h2, h3, h4⟩ := h
    rcases List.mem_cons.mp hc with rfl | hmem
    · exact ⟨cs, goodChain_anti sv target cs vis (insert d vis) c
        (Finset.subset_insert _ _) h4⟩
    · obtain ⟨w, hw⟩ := ih (insert d vis) x h4 c hmem
      exact ⟨w, goodChain_anti sv target w vis (insert d vis) c
        (Finset.subset_insert _ _) hw⟩

theorem plainChain_suffix (sv : Finset Loc) (target : Loc) :
    ∀ (u : List Loc) (c x : Loc) (w : List Loc),
      PlainChain sv target c (u ++ x :: w) → PlainChain sv target x w := by
  intro u
  induction u with
  | nil =>
    intro c x w h
    exact h.2.2
  | cons a u ih =>
    intro c x w h
    exact ih a x w h.2.2

theorem plainChain_prune (sv : Finset Loc) (target : Loc) :
    ∀ (n : Nat) (cells : List Loc) (c : Loc), cells.length ≤ n →
      PlainChain sv target c cells →
      ∃ cells', PlainChain sv target c cells' ∧ (c :: cells').Nodup ∧
        cells'.length ≤ cells.length ∧ ∀ y ∈ cells', y ∈ cells := by
  intro n
  induction n with
  | zero =>
    intro cells c hlen h
    rw [Nat.le_zero, List.length_eq_zero] at hlen
    subst hlen
    exact ⟨[], h, List.nodup_singleton c, Nat.le_refl 0,
      fun y hy => absurd hy (List.not_mem_nil y)⟩
  | succ n ih =>
    intro cells c hlen h
    by_cases hcmem : c ∈ cells
    · obtain ⟨u, w, rfl⟩ := List.append_of_mem hcmem
      have hw := plainChain_suffix sv target u c c w h
      have hwlen : w.length ≤ n := by
        rw [List.length_append, List.length_cons] at hlen
        omega
      obtain ⟨cells', h1, h2, h3, h4⟩ := ih w c hwlen hw
      refine ⟨cells', h1, h2, ?_, ?_⟩
      · rw [List.length_append, List.length_cons]
        omega
      · intro y hy
        exact List.mem_append.mpr (Or.inr (List.mem_cons_of_mem _ (h4 y hy)))
    · cases cells with
      | nil =>
        exact ⟨[], h, List.nodup_singleton c, Nat.le_refl 0,
          fun y hy => absurd hy (List.not_mem_nil y)⟩
      | cons x cs =>
        obtain ⟨h1, h2, h3⟩ := h
        have hcslen : cs.length ≤ n := by
          rw [List.length_cons] at hlen
          omega
        obtain ⟨cs', g1, g2, g3, g4⟩ := ih cs x hcslen h3
        refine ⟨x :: cs', ⟨h1, h2, g1⟩, ?_, ?_, ?_⟩
        · rw [List.nodup_cons]
          refine ⟨?_, g2⟩
          intro hcmem2
          rcases List.mem_cons.mp hcmem2 with he | hmem
          · exact hcmem (he ▸ List.mem_cons_self _ _)
          · exact hcmem (List.mem_cons_of_mem _ (g4 _ hmem))
        · rw [List.length_cons, List.length_cons]
          omega
        · intro y hy
          rcases List.mem_cons.mp hy with rfl | hmem
          · exact List.mem_cons_self _ _
          · exact List.mem_cons_of_mem _ (g4 y hmem)

theorem plainChain_good (sv : Finset Loc) (target : Loc) :
    ∀ (cells : List Loc) (c : Loc) (vis : Finset Loc), PlainChain sv target c cells →
      (c :: cells).Nodup → (∀ x ∈ cells, x ∉ vis) →
      GoodChain sv target vis c cells := by
  intro cells
  induction cells with
  | nil =>
    intro c vis h _ _
    exact h
  | cons x cs ih =>
    intro c vis h hnd hav
    obtain ⟨h1, h2, h3⟩ := h
    rw [List.nodup_cons] at hnd
    refine ⟨h1, h2, hav x (List.mem_cons_self _ _), ?_⟩
    refine ih x (insert c vis) h3 hnd.2 ?_
    intro y hy
    intro hmem
    rcases Finset.mem_insert.mp hmem with he | he
    · exact hnd.1 (he ▸ List.mem_cons_of_mem _ hy)
    · exact hav y (List.mem_cons_of_mem _ hy) he

theorem mem_bfsNeighbors (sv vis : Finset Loc) (c : Loc) (p : List Loc)
    (e : Loc × List Loc) :
    e ∈ bfsNeighbors sv vis c p ↔
      e.1 ∈ adjacent c ∧ e.1 ∈ sv ∧ e.1 ∉ vis ∧ e.2 = p ++ [e.1] := by
  obtain ⟨e1, e2⟩ := e
  rw [bfsNeighbors]
  simp only [List.mem_map, List.mem_filter, Bool.and_eq_true, decide_eq_true_eq,
    Prod.mk.injEq]
  constructor
  · rintro ⟨n, ⟨hn1, hn2, hn3⟩, rfl, rfl⟩
    exact ⟨(mem_adjacent_iff n c).mpr hn1, hn2, hn3, rfl⟩
  · rintro ⟨h1, h2, h3, h4⟩
    exact ⟨e1, ⟨(mem_adjacent_iff e1 c).mp h1, h2, h3⟩, rfl, h4.symm⟩

theorem bfsNeighbors_length (sv vis : Finset Loc) (c : Loc) (p : List Loc) :
    (bfsNeighbors sv vis c p).length ≤ 4 := by
  rw [bfsNeighbors, List.length_map]
  refine (List.length_filter_le _ _).trans ?_
  rw [adjacentList]
  exact (List.length_filterMap_le _ _).trans (by decide)

/-- BFS completeness: if some queued entry carries a `GoodChain` to the
target (and the bookkeeping invariants hold, with enough fuel for the
measure), the loop does not fail.  The fuel decreases by one per pop while
`queue.length + 5·|U \\ vis|` decreases by at least one: a skip shrinks the
queue; an expansion enqueues at most 4 entries but moves one cell of `U`
into `vis`. -/
theorem bfsLoop_finds (sv : Finset Loc) (target start : Loc) (U : Finset Loc)
    (hsv : sv ⊆ U) (hstart : start ≠ target) :
    ∀ (fuel : Nat) (queue : List (Loc × List Loc)) (vis : Finset Loc),
      queue.length + 5 * (U \ vis).card < fuel →
      (∀ e ∈ queue, e.1 ∈ U) →
      (∀ e ∈ queue, e.2 = [] → e.1 = start) →
      (∃ e ∈ queue, e.1 ∉ vis ∧ ∃ cells, GoodChain sv target vis e.1 cells) →
      bfsLoop sv target fuel queue vis ≠ [] := by
  intro fuel
  induction fuel with
  | zero =>
    intro queue vis hfuel _ _ _
    omega
  | succ n ih =>
    intro queue vis hfuel hq hnil hwit
    match queue with
    | [] =>
      obtain ⟨e, he, -⟩ := hwit
      exact absurd he (List.not_mem_nil e)
    | (c, p) :: rest =>
      rw [bfsLoop]
      by_cases hct : c = target
      · rw [if_pos hct]
        intro hp
        exact hstart ((hnil (c, p) (List.mem_cons_self _ _) hp) ▸ hct)
      · rw [if_neg hct]
        by_cases hcv : c ∈ vis
        · rw [if_pos hcv]
          refine ih rest vis ?_ ?_ ?_ ?_
          · rw [List.length_cons] at hfuel
            omega
          · exact fun e he => hq e (List.mem_cons_of_mem _ he)
          · exact fun e he => hnil e (List.mem_cons_of_mem _ he)
          · obtain ⟨e, he, henv, cells, hchain⟩ := hwit
            rcases List.mem_cons.mp he with rfl | hrest
            · exact absurd hcv henv
            · exact ⟨e, hrest, henv, cells, hchain⟩
        · rw [if_neg hcv]
          have hcU : c ∈ U := hq (c, p) (List.mem_cons_self _ _)
          have hkey : ∀ cells0 : List Loc, GoodChain sv target vis c cells0 →
              ∃ e' ∈ bfsNeighbors sv (insert c vis) c p,
                e'.1 ∉ insert c vis ∧
                ∃ cells', GoodChain sv target (insert c vis) e'.1 cells' := by
            intro cells0 hch
            cases cells0 with
            | nil => exact absurd hch hct
            | cons x cs =>
              obtain ⟨hx1, hx2, hx3, hx4⟩ := hch
              have hxnv : x ∉ insert c vis := by
                intro hmem
                rcases Finset.mem_insert.mp hmem with he | he
                · exact adjacent_irrefl c (he ▸ hx1)
                · exact hx3 he
              refine ⟨(x, p ++ [x]), ?_, hxnv, cs, hx4⟩
              rw [mem_bfsNeighbors]
              exact ⟨hx1, hx2, hxnv, rfl⟩
          refine ih (rest ++ bfsNeighbors sv (insert c vis) c p) (insert c vis) ?_ ?_ ?_ ?_
          · have hlen : (rest ++ bfsNeighbors sv (insert c vis) c p).length ≤
                rest.length + 4 := by
              rw [List.length_append]
              have := bfsNeighbors_length sv (insert c vis) c p
              omega
            have hcard : (U \ insert c vis).card + 1 = (U \ vis).card := by
              rw [Finset.sdiff_insert]
              rw [Finset.card_erase_of_mem (Finset.mem_sdiff.mpr ⟨hcU, hcv⟩)]
              have hpos : 0 < (U \ vis).card :=
                Finset.card_pos.mpr ⟨c, Finset.mem_sdiff.mpr ⟨hcU, hcv⟩⟩
              omega
            rw [List.length_cons] at hfuel
            omega
          · intro e he
            rcases List.mem_append.mp he with h | h
            · exact hq e (List.mem_cons_of_mem _ h)
            · exact hsv ((mem_bfsNeighbors _ _ _ _ e).mp h).2.1
          · intro e he hnilp
            rcases List.mem_append.mp he with h | h
            · exact hnil e (List.mem_cons_of_mem _ h) hnilp
            · have := ((mem_bfsNeighbors _ _ _ _ e).mp h).2.2.2
              rw [hnilp] at this
              exact absurd this.symm (List.append_ne_nil_of_right_ne_nil p (by simp))
          · obtain ⟨e, he, henv, cells, hchain⟩ := hwit
            rcases List.mem_cons.mp he with rfl | hrest
            · obtain ⟨e', he', henv', hch'⟩ := hkey cells hchain
              exact ⟨e', List.mem_append.mpr (Or.inr he'), henv', hch'⟩
            · by_cases hec : e.1 = c
              · rw [hec] at hchain
                obtain ⟨e', he', henv', hch'⟩ := hkey cells hchain
                exact ⟨e', List.mem_append.mpr (Or.inr he'), henv', hch'⟩
              · by_cases hccells : c ∈ cells
                · obtain ⟨w, hw⟩ := goodChain_extract sv target cells vis e.1 hchain c hccells
                  obtain ⟨e', he', henv', hch'⟩ := hkey w hw
                  exact ⟨e', List.mem_append.mpr (Or.inr he'), henv', hch'⟩
                · refine ⟨e, List.mem_append.mpr (Or.inl hrest), ?_, cells,
                    goodChain_insert sv target c cells vis e.1 hchain hccells⟩
                  intro hmem
                  rcases Finset.mem_insert.mp hmem with he2 | he2
                  · exact hec he2
                  · exact henv he2

theorem tell_agent_in_grid (kb : KB) (s : Sentence) (hv : kb.visited ⊆ allLocations)
    (ha : kb.agent_location ∈ allLocations) :
    (tell kb s).visited ⊆ allLocations ∧ (tell kb s).agent_location ∈ allLocations := by
  cases s with
  | percept p t =>
    rw [tell_percept_visited, tell_percept_agent_location]
    exact ⟨Finset.insert_subset ha hv, ha⟩
  | action a t =>
    refine ⟨by rw [(tell_action_frame kb a t).1]; exact hv, ?_⟩
    cases a with
    | move_forward =>
      simp only [tell, updateAgentState]
      split
      · rename_i hn
        simpa using hn
      · exact ha
    | grab => exact ha
    | turn_left => exact ha
    | turn_right => exact ha
    | shoot => exact ha
    | climb => exact ha

theorem reachable_grid (kb : KB) (h : Reachable kb) :
    kb.visited ⊆ allLocations ∧ kb.agent_location ∈ allLocations := by
  obtain ⟨l, rfl⟩ := h
  have aux : ∀ (m : List Sentence) (k : KB), k.visited ⊆ allLocations →
      k.agent_location ∈ allLocations →
      (run k m).visited ⊆ allLocations ∧ (run k m).agent_location ∈ allLocations := by
    intro m
    induction m with
    | nil => exact fun k h1 h2 => ⟨h1, h2⟩
    | cons s m ih =>
      intro k h1 h2
      obtain ⟨g1, g2⟩ := tell_agent_in_grid k s h1 h2
      exact ih (tell k s) g1 g2
  exact aux l initKB (by decide) (by decide)

/-- Clean percepts along (1,1)→(2,1)→(3,1), then walk back to (1,1). -/
def exC8 : List Sentence :=
  [Sentence.percept perceptNone 0, Sentence.action Action.move_forward 1,
   Sentence.percept perceptNone 2, Sentence.action Action.turn_left 3,
   Sentence.action Action.turn_left 4, Sentence.action Action.move_forward 5]

/-- **C8 counterexample**: at the state after `exC8` the agent is back at
(1,1); for target (3,1) the path (1,1)→(2,1)→(3,1) has its single
intermediate cell (2,1) safe and visited and the target itself safe — the
claim's hypothesis — yet `_navigate_to` returns failure: the BFS enqueues
only safe *and visited* cells, so it never reaches the unvisited target (and
the direct-adjacency shortcut does not apply at distance two). -/
theorem navigate_counterexample :
    (run initKB exC8).agent_location = (1, 1) ∧
    (2, 1) ∈ adjacent (1, 1) ∧ (3, 1) ∈ adjacent (2, 1) ∧
    (2, 1) ∈ safeDerived (run initKB exC8) ∧ (2, 1) ∈ (run initKB exC8).visited ∧
    (3, 1) ∈ safeDerived (run initKB exC8) ∧ (3, 1) ∉ (run initKB exC8).visited ∧
    navigateTo (run initKB exC8) (3, 1) = none := by
  decide

/-- **C8** (corrected).  `_navigate_to(target)` is guaranteed an action when
the target differs from the agent's location and there is an adjacency path
from the agent to the target **all of whose cells — the target included —
are safe and visited** (the BFS restricts every enqueued cell, not just the
intermediate ones, to the safe-visited subgraph); a target outside
`visited ∩ safe` is reached only by the direct-adjacency branch, which
requires it to be adjacent and safe.  Stated over reachable belief states,
whose sets lie inside the 4×4 grid. -/
theorem navigate_succeeds (kb : KB) (target : Loc) (hreach : Reachable kb)
    (hne : kb.agent_location ≠ target)
    (hpath : ∃ cells, PlainChain (safeDerived kb ∩ kb.visited) target
        kb.agent_location cells) :
    (navigateTo kb target).isSome = true := by
  rw [navigateTo, if_neg hne]
  by_cases hadj : target ∈ (adjacentList kb.agent_location).filter
      (fun l => decide (l ∈ safeDerived kb))
  · rw [if_pos hadj]
    rfl
  · rw [if_neg hadj]
    obtain ⟨cells, hcells⟩ := hpath
    obtain ⟨cells', hpc, hnd, -, -⟩ := plainChain_prune _ _ cells.length cells
      kb.agent_location (Nat.le_refl _) hcells
    have hgc : GoodChain (safeDerived kb ∩ kb.visited) target ∅ kb.agent_location cells' :=
      plainChain_good _ _ cells' kb.agent_location ∅ hpc hnd
        (fun x _ => Finset.not_mem_empty x)
    have hgrid := reachable_grid kb hreach
    have hcard : (insert kb.agent_location (safeDerived kb ∩ kb.visited)).card ≤ 17 := by
      have h2 : insert kb.agent_location (safeDerived kb ∩ kb.visited) ⊆ allLocations :=
        Finset.insert_subset hgrid.2 (Finset.inter_subset_right.trans hgrid.1)
      have h3 := Finset.card_le_card h2
      rw [show allLocations.card = 16 from by decide] at h3
      omega
    have hfind := bfsLoop_finds (safeDerived kb ∩ kb.visited) target kb.agent_location
      (insert kb.agent_location (safeDerived kb ∩ kb.visited))
      (Finset.subset_insert _ _) hne 100 [(kb.agent_location, [])] ∅
      (by rw [Finset.sdiff_empty, List.length_singleton]; omega)
      (by
        intro e he
        rw [List.mem_singleton.mp he]
        exact Finset.mem_insert_self _ _)
      (by
        intro e he h2
        rw [List.mem_singleton.mp he])
      ⟨(kb.agent_location, []), List.mem_singleton.mpr rfl, Finset.not_mem_empty _,
        cells', hgc⟩
    cases hpt : findPathTo kb target with
    | nil => exact absurd hpt hfind
    | cons a l => rfl

/-- Clean percepts along (1,1)→(2,1)→(3,1), then walk back to (1,1):
all three cells end up safe and visited. -/
def exC8w : List Sentence :=
  [Sentence.percept perceptNone 0, Sentence.action Action.move_forward 1,
   Sentence.percept perceptNone 2, Sentence.action Action.move_forward 3,
   Sentence.percept perceptNone 4, Sentence.action Action.turn_left 5,
   Sentence.action Action.turn_left 6, Sentence.action Action.move_forward 7,
   Sentence.action Action.move_forward 8]

/-- Witness for C8: from (1,1), navigation to the safe, visited cell (3,1)
two hops away succeeds through the BFS. -/
theorem navigate_succeeds_witness :
    (navigateTo (run initKB exC8w) (3, 1)).isSome = true :=
  navigate_succeeds (run initKB exC8w) (3, 1) ⟨exC8w, rfl⟩ (by decide)
    ⟨[(2, 1), (3, 1)], by decide⟩

end WumpusKB
